import Mathlib

/-!
# Verification of the rainfall fern map (src/main.js)

Shallow embedding of the data model and operations of `src/main.js`:
the name normalizer, the alias tables, the CSV loader and rainfall
ingestion, the value resolver, the fern style/IFS generator, the fern
builders, the boundary loader and the time stepper.

Modelling conventions:
* JavaScript numbers produced by `Number(...)` are modelled as
  `Option ℚ`, `none` standing for a non-finite result (`NaN` or
  `±Infinity`); every comparison the source performs on such a number
  (`===`, `<=`) is false on `NaN`, which `none` reproduces.
* JavaScript's `Number(string)` conversion itself is a host-language
  builtin, kept abstract as a parameter `jsNum : String → Option ℚ`
  everywhere the source calls it.
* A JavaScript object built by successive `obj[k] = v` assignments is an
  association list read from the last binding backwards (`objGet`);
  a JavaScript `Map` is an association list with at most one entry per
  key, read from the front (`List.lookup`), insertion order preserved
  (`insertGroup`).
* Characters are handled through their code points; `Char.toLower`
  coincides with `toLowerCase` on the basic-latin letters appearing in
  the data.
-/

namespace RainMap

/-! ## Name Normalizer (`norm`, src/main.js:43-47)

`const norm = s => (s ?? "").toLowerCase().replace(/\s+/g, " ")
                   .replace(/[^\w& ]/g, "").trim();` -/

/-- Code points matched by the JavaScript `\s` class (used by `/\s+/`
and by `String.prototype.trim`). -/
def spaceCode (n : Nat) : Bool :=
  n = 32 || n = 9 || n = 10 || n = 11 || n = 12 || n = 13 || n = 160 ||
  n = 5760 || (8192 ≤ n && n ≤ 8202) || n = 8232 || n = 8233 ||
  n = 8239 || n = 8287 || n = 12288 || n = 65279

/-- JavaScript whitespace (`\s`). -/
def jsIsSpace (c : Char) : Bool := spaceCode c.toNat

/-- Code points matched by the JavaScript `\w` class: `[A-Za-z0-9_]`. -/
def wordCode (n : Nat) : Bool :=
  (97 ≤ n && n ≤ 122) || (65 ≤ n && n ≤ 90) || (48 ≤ n && n ≤ 57) || n = 95

/-- JavaScript word character (`\w`). -/
def isWordChar (c : Char) : Bool := wordCode c.toNat

/-- A character surviving `.replace(/[^\w& ]/g, "")`: word characters,
the ampersand (38) and the plain space (32). -/
def keepCode (n : Nat) : Bool := wordCode n || n = 38 || n = 32

/-- Character form of `keepCode`. -/
def keepChar (c : Char) : Bool := keepCode c.toNat

/-- `.replace(/\s+/g, " ")`: collapse every maximal whitespace run to a
single space.  The flag records whether the previous character was
whitespace (a run that already emitted its space). -/
def collapseWS : Bool → List Char → List Char
  | _, [] => []
  | inRun, c :: cs =>
    if jsIsSpace c then
      if inRun then collapseWS true cs
      else ' ' :: collapseWS true cs
    else c :: collapseWS false cs

/-- `String.prototype.trim`: strip whitespace from both ends. -/
def trimWS (l : List Char) : List Char :=
  ((l.dropWhile jsIsSpace).reverse.dropWhile jsIsSpace).reverse

/-- `norm` on the character list: lower-case, collapse whitespace runs,
strip everything except word characters / `&` / space, trim. -/
def normList (l : List Char) : List Char :=
  trimWS (List.filter keepChar (collapseWS false (l.map Char.toLower)))

/-- The Name Normalizer `norm` (src/main.js:43-47). -/
def norm (s : String) : String := ⟨normList s.data⟩

/-- Relation between adjacent characters: not both plain spaces.
`collapseWS` establishes it; the strip step may destroy it. -/
def NoSS (a b : Char) : Prop := ¬(a = ' ' ∧ b = ' ')

/-! ## Alias tables (`NAME_ALIASES` src/main.js:49-86,
`REVERSE_ALIASES` src/main.js:101-104) -/

/-- Property read on a JavaScript object built by successive
`obj[key] = value` assignments: the last binding for the key wins. -/
def objGet (entries : List (String × String)) (k : String) : Option String :=
  ((entries.filter (fun p => p.1 = k)).getLast?).map Prod.snd

/-- `NAME_ALIASES` (src/main.js:49-86): CSV-scheme normalized name to
topo-scheme normalized key, every side passed through `norm`. -/
def NAME_ALIASES : List (String × String) := [
  (norm "Andaman & Nicobar Islands", norm "1"),
  (norm "Arunachal Pradesh", norm "2"),
  (norm "Assam & Meghalaya", norm "3"),
  (norm "Naga Mani Mizo Tripura", norm "4"),
  (norm "Sub Himalayan West Bengal & Sikkim", norm "5"),
  (norm "Gangetic West Bengal", norm "6"),
  (norm "Orissa", norm "7"),
  (norm "Jharkhand", norm "8"),
  (norm "Bihar", norm "9"),
  (norm "East Uttar Pradesh", norm "10"),
  (norm "West Uttar Pradesh", norm "11"),
  (norm "Uttarakhand", norm "12"),
  (norm "Haryana Delhi & Chandigarh", norm "13"),
  (norm "Punjab", norm "14"),
  (norm "Himachal Pradesh", norm "15"),
  (norm "Jammu & Kashmir", norm "16"),
  (norm "West Rajasthan", norm "17"),
  (norm "East Rajasthan", norm "18"),
  (norm "West Madhya Pradesh", norm "19"),
  (norm "East Madhya Pradesh", norm "20"),
  (norm "Gujarat Region", norm "21"),
  (norm "Saurashtra & Kutch", norm "22"),
  (norm "Konkan & Goa", norm "23"),
  (norm "Madhya Maharashtra", norm "24"),
  (norm "Matathwada", norm "25"),
  (norm "Vidarbha", norm "26"),
  (norm "Chhattisgarh", norm "27"),
  (norm "Coastal Andhra Pradesh", norm "28"),
  (norm "Telangana", norm "29"),
  (norm "Rayalseema", norm "30"),
  (norm "Tamil Nadu", norm "31"),
  (norm "Coastal Karnataka", norm "32"),
  (norm "North Interior Karnataka", norm "33"),
  (norm "South Interior Karnataka", norm "34"),
  (norm "Kerala", norm "35"),
  (norm "Lakshadweep", norm "36")]

/-- `REVERSE_ALIASES` (src/main.js:101-104): the forward table with every
entry swapped (`Object.fromEntries` over the swapped pairs; on duplicate
keys the last registered mapping wins, which `objGet` reproduces). -/
def REVERSE_ALIASES : List (String × String) :=
  NAME_ALIASES.map (fun p => (p.2, p.1))

/-! ## CSV loading (`loadCSVRows` src/main.js:119-135) -/

/-- A parsed CSV row object: header field name to cell string. -/
abbrev Row := List (String × String)

/-- `String.prototype.trim` on strings. -/
def jsTrim (s : String) : String := ⟨trimWS s.data⟩

/-- Split a character list at every occurrence of the separator, the
JavaScript `String.prototype.split` semantics: `""` yields `[""]`, and
adjacent separators yield empty fields. -/
def splitOnChar (sep : Char) : List Char → List (List Char)
  | [] => [[]]
  | c :: cs =>
    if c = sep then [] :: splitOnChar sep cs
    else
      match splitOnChar sep cs with
      | [] => [[c]]
      | h :: t => (c :: h) :: t

/-- `s.split(sep)` for a one-character separator. -/
def jsSplit (sep : Char) (s : String) : List String :=
  (splitOnChar sep s.data).map (fun l => ⟨l⟩)

/-- Remove one trailing carriage return, matching the effect of
splitting on the `/\r?\n/` separator rather than on `'\n'` alone. -/
def dropTrailingCR (s : String) : String :=
  match s.data.getLast? with
  | some '\r' => ⟨s.data.dropLast⟩
  | _ => s

/-- `text.split(/\r?\n/).filter(Boolean)`: split into lines and drop the
empty ones. -/
def jsLines (text : String) : List String :=
  ((jsSplit '\n' text).map dropTrailingCR).filter (fun l => l ≠ "")

/-- `splitCSVLine` (src/main.js:135): split on commas and trim each
cell. -/
def splitCSVLine (line : String) : List String :=
  (jsSplit ',' line).map jsTrim

/-- The row object built by `obj[headers[j]] = parts[j]`. -/
def mkObj (headers parts : List String) : Row := headers.zip parts

/-- The row-building loop of `loadCSVRows`: a line whose field count
differs from the header's is skipped. -/
def loadLoop (headers : List String) : List String → List Row
  | [] => []
  | line :: ls =>
    let parts := splitCSVLine line
    if parts.length = headers.length then
      mkObj headers parts :: loadLoop headers ls
    else loadLoop headers ls

/-- `loadCSVRows` (src/main.js:119-133) applied to the fetched text.
`none` models the exception the source raises on input with no lines
(reading `lines[0]` of an empty array). -/
def loadCSVRows (text : String) : Option (List Row) :=
  match jsLines text with
  | [] => none
  | lfirst :: rest =>
    some (loadLoop ((jsSplit ',' lfirst).map jsTrim) rest)

/-! ## Rainfall ingestion (`ingestRainRows` src/main.js:399-428) -/

/-- `YEAR_COL` (src/main.js:9). -/
def YEAR_COL : String := "YEAR"

/-- `MONTHS` (src/main.js:8). -/
def MONTHS : List String :=
  ["JAN", "FEB", "MAR", "APR", "MAY", "JUN",
   "JUL", "AUG", "SEP", "OCT", "NOV", "DEC"]

/-- `row["SUBDIVISION"]` guarded by `if (!sub) continue`: a missing field
(`undefined`) and the empty string are both falsy and skipped. -/
def subOf (r : Row) : Option String :=
  match objGet r "SUBDIVISION" with
  | some s => if s = "" then none else some s
  | none => none

/-- `Number(r[YEAR_COL])` restricted to finite outcomes. -/
def yearNum (jsNum : String → Option ℚ) (r : Row) : Option ℚ :=
  match objGet r YEAR_COL with
  | some s => jsNum s
  | none => none

/-- One `tmp.get(sub).push(row)` step on the insertion-ordered map. -/
def insertGroup (m : List (String × List Row)) (k : String) (r : Row) :
    List (String × List Row) :=
  match m with
  | [] => [(k, [r])]
  | (k', rs) :: rest =>
    if k' = k then (k', rs ++ [r]) :: rest
    else (k', rs) :: insertGroup rest k r

/-- The grouping loop of `ingestRainRows`: group rows by their literal
subdivision string, keeping insertion order, skipping falsy names. -/
def groupRows (rows : List Row) : List (String × List Row) :=
  rows.foldl
    (fun m r =>
      match subOf r with
      | some s => insertGroup m s r
      | none => m) []

/-- `Set` insertion order: keep the first occurrence of each value. -/
def dedupAux (seen : List ℚ) : List ℚ → List ℚ
  | [] => []
  | x :: xs =>
    if x ∈ seen then dedupAux seen xs
    else x :: dedupAux (x :: seen) xs

/-- `subdivisionList = Array.from(dataBySubdivision.keys()).sort()`
(src/main.js:412): the group keys sorted by the default (lexicographic)
comparator.  The per-group year sort between grouping and this line does
not touch the key list. -/
def subdivisionListOf (rows : List Row) : List String :=
  List.insertionSort (fun a b => a ≤ b) ((groupRows rows).map Prod.fst)

/-- Every finite year value of every grouped row, in iteration order
(src/main.js:414-420); sorting the groups by year permutes each group
but leaves this multiset unchanged. -/
def allYearsOf (jsNum : String → Option ℚ) (rows : List Row) : List ℚ :=
  (groupRows rows).flatMap (fun g => g.2.filterMap (yearNum jsNum))

/-- `yearList = Array.from(yearSet).sort((a, b) => a - b)`
(src/main.js:421). -/
def yearListOf (jsNum : String → Option ℚ) (rows : List Row) : List ℚ :=
  List.insertionSort (fun a b => a ≤ b) (dedupAux [] (allYearsOf jsNum rows))

/-! ## Value Resolver (`valueFor` src/main.js:430-443) -/

/-- `Number(row[m])`: `none` for a missing month label, a missing field
or a non-finite conversion. -/
def monthNum (jsNum : String → Option ℚ) (r : Row) (m : Option String) :
    Option ℚ :=
  match m with
  | none => none
  | some f =>
    match objGet r f with
    | some s => jsNum s
    | none => none

/-- `Number(r[YEAR_COL]) === y`: false whenever either side is `NaN`. -/
def yearEqB (jsNum : String → Option ℚ) (y : Option ℚ) (r : Row) : Bool :=
  match yearNum jsNum r, y with
  | some ry, some yv => ry = yv
  | _, _ => false

/-- `Number(arr[i][YEAR_COL]) <= y`: false whenever either side is
`NaN`. -/
def yearLeB (jsNum : String → Option ℚ) (y : Option ℚ) (r : Row) : Bool :=
  match yearNum jsNum r, y with
  | some ry, some yv => ry ≤ yv
  | _, _ => false

/-- `valueFor` (src/main.js:430-443): exact year match, else nearest
previous year scanning from the back, else the first record; `none`
(NaN) when the region is unknown or empty. -/
def valueFor (jsNum : String → Option ℚ) (db : List (String × List Row))
    (sub : String) (y : Option ℚ) (m : Option String) : Option ℚ :=
  match List.lookup sub db with
  | none => none
  | some [] => none
  | some (a0 :: rest) =>
    let arr := a0 :: rest
    let row :=
      match arr.find? (yearEqB jsNum y) with
      | some r => r
      | none =>
        match arr.reverse.find? (yearLeB jsNum y) with
        | some r => r
        | none => a0
    monthNum jsNum row m

/-! ## Fern style and IFS (`chooseStyle` src/main.js:329-336, `IFS`
src/main.js:338-343, `buildFernGeometryForValue` src/main.js:345-381) -/

/-- `chooseStyle` (src/main.js:329-336): value to (color, point count);
a non-finite value (`none`) gets the "unknown" style. -/
def chooseStyle (value : Option ℚ) : String × Nat :=
  match value with
  | none => ("#555555", 5000)
  | some v =>
    if v ≤ 50 then ("#a56c34", 1000)
    else if v ≤ 100 then ("#96ad2f", 2500)
    else if v ≤ 200 then ("#3ba84d", 5000)
    else if v ≤ 300 then ("#1f6e2c", 6000)
    else ("#325c49", 7500)

/-- Which of the five threshold brackets of `chooseStyle` a finite value
falls into (upper boundaries inclusive). -/
def styleBracket (v : ℚ) : Nat :=
  if v ≤ 50 then 0
  else if v ≤ 100 then 1
  else if v ≤ 200 then 2
  else if v ≤ 300 then 3
  else 4

/-- `IFS` (src/main.js:338-343): four affine transforms
`[a, b, c, d, e, f, p]`, the seventh entry being the probability weight
of the first transform. -/
def IFS : List (List ℚ) := [
  [0, 0, 0, 16/100, 0, 0, 1/100],
  [85/100, 4/100, -(4/100), 85/100, 0, 160/100, 85/100],
  [20/100, -(26/100), 23/100, 22/100, 0, 160/100, 7/100],
  [-(15/100), 28/100, 26/100, 24/100, 0, 44/100, 7/100]]

/-- `IFS[i]`. -/
def ifsRow (i : Nat) : List ℚ := IFS.getD i []

/-- `IFS[i][j]`. -/
def ifsC (i j : Nat) : ℚ := (ifsRow i).getD j 0

/-- The transform selection of the point loop (src/main.js:358-361):
`r < IFS[0][6]`, then the cumulative breakpoints `0.86` and `0.93`. -/
def chooseT (r : ℚ) : List ℚ :=
  if r < ifsC 0 6 then ifsRow 0
  else if r < 86/100 then ifsRow 1
  else if r < 93/100 then ifsRow 2
  else ifsRow 3

/-- One iteration of the point loop (src/main.js:358-365): pick the
transform for the selector `r` and apply
`(x, y) ↦ (a·x + b·y + e, c·x + d·y + f)`. -/
def fernStep (p : ℚ × ℚ) (r : ℚ) : ℚ × ℚ :=
  ((chooseT r).getD 0 0 * p.1 + (chooseT r).getD 1 0 * p.2 + (chooseT r).getD 4 0,
   (chooseT r).getD 2 0 * p.1 + (chooseT r).getD 3 0 * p.2 + (chooseT r).getD 5 0)

/-- The scale/offset applied when a state is written into the position
buffer (src/main.js:368-369): `SCALE = 34`, `Y_OFF = -40`. -/
def emitPoint (p : ℚ × ℚ) : ℚ × ℚ := (p.1 * 34, p.2 * 34 + -40)

/-- The emitted positions of the point loop run on the selector sequence
`rs` from state `p`: each iteration first updates the state, then emits
the updated state. -/
def fernTrail (p : ℚ × ℚ) : List ℚ → List (ℚ × ℚ)
  | [] => []
  | r :: rs => emitPoint (fernStep p r) :: fernTrail (fernStep p r) rs

/-! ## Fern building (`buildAllFerns` src/main.js:445-485,
`updateAllFerns` src/main.js:499-509) -/

/-- `DEFAULT_SCALE` (src/main.js:99). -/
def DEFAULT_SCALE : ℚ := 25/100

/-- The relevant state of one `THREE.Points` fern
(`mesh.userData.subdivision`, `mesh.userData.key`, position, scale, and
the value its geometry was last built from). -/
structure FernMesh where
  subdivision : String
  key : String
  pos : ℚ × ℚ × ℚ
  scale : ℚ
  value : Option ℚ
deriving DecidableEq, Repr

/-- `setFernValue` (src/main.js:392-396): rebuild the geometry from a
new value; everything else is untouched. -/
def setFernValue (mesh : FernMesh) (v : Option ℚ) : FernMesh :=
  ⟨mesh.subdivision, mesh.key, mesh.pos, mesh.scale, v⟩

/-- `NAME_ALIASES[norm(sub)] ?? norm(sub)` (src/main.js:460 and
src/main.js:324). -/
def aliasKeyOf (sub : String) : String :=
  match objGet NAME_ALIASES (norm sub) with
  | some k => k
  | none => norm sub

/-- The module-level state read by `buildAllFerns` and
`updateAllFerns`: `anchors`, `scaleBySubdivision`, `dataBySubdivision`,
`subdivisionList`, `yearList`, `yearIndex`, `monthIndex`. -/
structure AppEnv where
  anchors : List (String × (ℚ × ℚ × ℚ))
  scaleBy : List (String × ℚ)
  db : List (String × List Row)
  subdivisionList : List String
  yearList : List ℚ
  yearIndex : Nat
  monthIndex : Nat

/-- `yearList[yearIndex] ?? Number(dataBySubdivision.get(sub)?.[0]?.[YEAR_COL])`
(src/main.js:463): the `??` falls through only on `undefined`, never on
`NaN`. -/
def currentYearFor (jsNum : String → Option ℚ) (env : AppEnv) (sub : String) :
    Option ℚ :=
  match env.yearList.get? env.yearIndex with
  | some yv => some yv
  | none =>
    match List.lookup sub env.db with
    | some (r0 :: _) => yearNum jsNum r0
    | _ => none

/-- The loop body of `buildAllFerns` (src/main.js:456-480) over the
remaining subdivisions, returning the meshes pushed onto `fernMeshes`
and the count of missing anchors. -/
def buildLoop (jsNum : String → Option ℚ) (env : AppEnv) :
    List String → List FernMesh × Nat
  | [] => ([], 0)
  | sub :: subs =>
    let topoKey := aliasKeyOf sub
    let v := valueFor jsNum env.db sub (currentYearFor jsNum env sub)
      (MONTHS.get? env.monthIndex)
    let anchor := List.lookup topoKey env.anchors
    let pos := match anchor with | some a => a | none => (0, 0, 0)
    let sc := match List.lookup topoKey env.scaleBy with
      | some s => s
      | none => DEFAULT_SCALE
    let rest := buildLoop jsNum env subs
    (⟨sub, topoKey, pos, sc, v⟩ :: rest.1,
     (match anchor with | some _ => 0 | none => 1) + rest.2)

/-- `buildAllFerns` (src/main.js:445-485): one mesh per entry of
`subdivisionList`, in order, plus the missing-anchor count. -/
def buildAllFerns (jsNum : String → Option ℚ) (env : AppEnv) :
    List FernMesh × Nat :=
  buildLoop jsNum env env.subdivisionList

/-- The loop of `updateAllFerns` (src/main.js:503-508) from index `i`:
pair `subdivisionList[i]` with `fernMeshes[i]` and rebuild that mesh
with the resolved value (an out-of-range index reads `undefined`, and
the resolver then yields NaN). -/
def updateLoop (jsNum : String → Option ℚ) (env : AppEnv) :
    Nat → List FernMesh → List FernMesh
  | _, [] => []
  | i, mesh :: rest =>
    let v := match env.subdivisionList.get? i with
      | some s =>
        valueFor jsNum env.db s (env.yearList.get? env.yearIndex)
          (MONTHS.get? env.monthIndex)
      | none => none
    setFernValue mesh v :: updateLoop jsNum env (i + 1) rest

/-- `updateAllFerns` (src/main.js:499-509). -/
def updateAllFerns (jsNum : String → Option ℚ) (env : AppEnv)
    (meshes : List FernMesh) : List FernMesh :=
  updateLoop jsNum env 0 meshes

/-! ## Boundary Loader (`loadBoundaries` src/main.js:107-117) -/

/-- The decoded JSON document: its discriminant `type` field and, for a
topology, its named geometry objects in key order.  `V` stands for the
remaining JSON payload of a geometry object. -/
structure JsonDoc (V : Type) where
  dtype : String
  objects : List (String × V)

/-- Outcome of `await fetch(url)` followed by `await resp.json()`:
either `!resp.ok` with the HTTP status, or the decoded document. -/
inductive FetchResult (V : Type) where
  | fail (status : Nat)
  | ok (doc : JsonDoc V)

/-- `loadBoundaries` (src/main.js:107-117).  `tf` stands for the
external `topojson-client` `feature` extraction applied to the document
and its first named geometry object (`Object.keys(data.objects)[0]`). -/
def loadBoundaries {V : Type} (tf : JsonDoc V → Option V → JsonDoc V) :
    FetchResult V → Except String (JsonDoc V)
  | .fail status => .error ("Failed to load (" ++ toString status ++ ")")
  | .ok doc =>
    if doc.dtype = "Topology" then
      .ok (tf doc (doc.objects.head?.map Prod.snd))
    else if doc.dtype = "FeatureCollection" then .ok doc
    else .error ("Unrecognized data type: " ++ doc.dtype)

/-! ## Time Stepper (`step` src/main.js:512-520) -/

/-- The mutable cursor state touched by the stepper: `monthIndex`,
`yearIndex`, `lastTime`. -/
structure ClockState where
  monthIndex : Nat
  yearIndex : Nat
  lastTime : Int
deriving DecidableEq, Repr

/-- `step` (src/main.js:512-520): when the tick interval has elapsed and
`yearList` is nonempty, advance the month modulo `MONTHS.length` and
record the time; `yearIndex` is never written. -/
def step (tickMs : Int) (nYears : Nat) (now : Int) (s : ClockState) :
    ClockState :=
  if tickMs ≤ now - s.lastTime ∧ nYears ≠ 0 then
    ⟨(s.monthIndex + 1) % MONTHS.length, s.yearIndex, now⟩
  else s

/-- Fold `step` over a sequence of frame timestamps. -/
def runSteps (tickMs : Int) (nYears : Nat) (nows : List Int)
    (s : ClockState) : ClockState :=
  nows.foldl (fun st n => step tickMs nYears n st) s

/-- Every timestamp in the sequence triggers an actual advance (the
guard of `step` holds each time). -/
def firesAll (tickMs : Int) (nYears : Nat) (s : ClockState) :
    List Int → Bool
  | [] => true
  | n :: ns =>
    (decide (tickMs ≤ n - s.lastTime) && decide (nYears ≠ 0)) &&
      firesAll tickMs nYears (step tickMs nYears n s) ns

/-! ## A concrete `Number(...)`-instance for witnesses

`jsNumLit` parses plain nonempty digit strings; it agrees with
JavaScript `Number` on such strings and is used only to instantiate the
abstract `jsNum` parameter in concrete witness computations. -/

/-- Decimal value of a digit string, `none` on anything else. -/
def jsNumLit (s : String) : Option ℚ :=
  if s.data ≠ [] ∧ s.data.all Char.isDigit then
    some ((s.data.foldl (fun n c => n * 10 + (c.toNat - 48)) 0 : Nat) : ℚ)
  else none


/-- The strict-ascending-years relation between two rows: whenever both
years parse, the first is strictly smaller.  `ingestRainRows` sorts each
region's rows by year, and real data has distinct years per region. -/
def YearLt (jsNum : String → Option ℚ) (r r' : Row) : Prop :=
  ∀ a b : ℚ, yearNum jsNum r = some a → yearNum jsNum r' = some b → a < b

/-- Sample records for concrete witnesses: region "X", years 1980, 1985
and 1990. -/
def row1980 : Row := [("SUBDIVISION", "X"), ("YEAR", "1980"), ("JAN", "5")]

/-- Sample record, year 1985. -/
def row1985 : Row := [("SUBDIVISION", "X"), ("YEAR", "1985"), ("JAN", "7")]

/-- Sample record, year 1990. -/
def row1990 : Row := [("SUBDIVISION", "X"), ("YEAR", "1990"), ("JAN", "9")]

/-- Sample `dataBySubdivision` map for witnesses. -/
def sampleDb : List (String × List Row) := [("X", [row1980, row1985, row1990])]


/-- A row sits in some group of the insertion-ordered map. -/
def GMem (m : List (String × List Row)) (r : Row) : Prop :=
  ∃ g ∈ m, r ∈ g.2

/-- Sample CSV text for concrete witnesses: one malformed line
(`"bad,line"`, two fields against three headers) and one blank line. -/
def csvSample : String :=
  "SUBDIVISION,YEAR,JAN\nX,1980,5\nbad,line\nX,1985,7\n\nB,1990,9"


/-- Sample module state for concrete witnesses: no anchors, no scale
overrides, the sample data, one subdivision. -/
def envSample : AppEnv := ⟨[], [], sampleDb, ["X"], [1980, 1985, 1990], 0, 0⟩

/-! ## Character-level lemmas for the normalizer -/

theorem spaceCode_iff {n : Nat} : spaceCode n = true ↔
    (n = 32 ∨ n = 9 ∨ n = 10 ∨ n = 11 ∨ n = 12 ∨ n = 13 ∨ n = 160 ∨
     n = 5760 ∨ (8192 ≤ n ∧ n ≤ 8202) ∨ n = 8232 ∨ n = 8233 ∨
     n = 8239 ∨ n = 8287 ∨ n = 12288 ∨ n = 65279) := by
  simp only [spaceCode, Bool.or_eq_true, Bool.and_eq_true, decide_eq_true_eq]
  tauto

theorem toNat_ofNat_valid (n : Nat) (h : n.isValidChar) :
    (Char.ofNat n).toNat = n := by
  simp [Char.ofNat, dif_pos h, Char.ofNatAux, Char.toNat, UInt32.toNat]

theorem toLower_toNat (c : Char) :
    (Char.toLower c).toNat =
      if 65 ≤ c.toNat ∧ c.toNat ≤ 90 then c.toNat + 32 else c.toNat := by
  by_cases h : 65 ≤ c.toNat ∧ c.toNat ≤ 90
  · have hv : (c.toNat + 32).isValidChar := Or.inl (by omega)
    simp [Char.toLower, h, toNat_ofNat_valid _ hv]
  · simp [Char.toLower, h]

theorem toLower_of_not_upper {c : Char} (h : ¬(65 ≤ c.toNat ∧ c.toNat ≤ 90)) :
    Char.toLower c = c := by
  simp [Char.toLower, h]

theorem toLower_idem (c : Char) :
    Char.toLower (Char.toLower c) = Char.toLower c := by
  apply toLower_of_not_upper
  rw [toLower_toNat c]
  by_cases h : 65 ≤ c.toNat ∧ c.toNat ≤ 90 <;> simp [h] <;> omega

theorem toLower_of_space {c : Char} (h : jsIsSpace c = true) :
    Char.toLower c = c := by
  apply toLower_of_not_upper
  have := spaceCode_iff.mp h
  omega

theorem jsIsSpace_toLower (c : Char) :
    jsIsSpace (Char.toLower c) = jsIsSpace c := by
  by_cases h : 65 ≤ c.toNat ∧ c.toNat ≤ 90
  · have h1 : jsIsSpace (Char.toLower c) = false := by
      unfold jsIsSpace
      rw [toLower_toNat c, if_pos h]
      by_contra hx
      simp only [Bool.not_eq_false] at hx
      have := spaceCode_iff.mp hx
      omega
    have h2 : jsIsSpace c = false := by
      by_contra hx
      simp only [Bool.not_eq_false] at hx
      have := spaceCode_iff.mp hx
      omega
    rw [h1, h2]
  · rw [toLower_of_not_upper h]

theorem keep_and_space {c : Char} (hk : keepChar c = true)
    (hs : jsIsSpace c = true) : c = ' ' := by
  have hn : c.toNat = 32 := by
    have h1 := spaceCode_iff.mp hs
    have h2 : keepCode c.toNat = true := hk
    simp only [keepCode, wordCode, Bool.or_eq_true, Bool.and_eq_true,
      decide_eq_true_eq] at h2
    omega
  have := Char.ofNat_toNat c
  rw [hn] at this
  exact this.symm

/-! ## Structure of the collapse, strip and trim passes -/

theorem mem_collapseWS : ∀ (b : Bool) (l : List Char) (c : Char),
    c ∈ collapseWS b l → c = ' ' ∨ (c ∈ l ∧ jsIsSpace c = false) := by
  intro b l
  induction l generalizing b with
  | nil => intro c h; simp [collapseWS] at h
  | cons a cs ih =>
    intro c h
    by_cases ha : jsIsSpace a
    · by_cases hb : b
      · simp [collapseWS, ha, hb] at h
        rcases ih true c h with h1 | ⟨h2, h3⟩
        · exact Or.inl h1
        · exact Or.inr ⟨List.mem_cons_of_mem _ h2, h3⟩
      · simp only [hb] at *
        simp [collapseWS, ha] at h
        rcases h with h | h
        · exact Or.inl h
        · rcases ih true c h with h1 | ⟨h2, h3⟩
          · exact Or.inl h1
          · exact Or.inr ⟨List.mem_cons_of_mem _ h2, h3⟩
    · simp [collapseWS, ha] at h
      rcases h with h | h
      · subst h
        exact Or.inr ⟨List.mem_cons_self _ _, by simpa using ha⟩
      · rcases ih false c h with h1 | ⟨h2, h3⟩
        · exact Or.inl h1
        · exact Or.inr ⟨List.mem_cons_of_mem _ h2, h3⟩

theorem head?_collapseWS_true : ∀ (cs : List Char) (d : Char),
    (collapseWS true cs).head? = some d → jsIsSpace d = false := by
  intro cs
  induction cs with
  | nil => intro d h; simp [collapseWS] at h
  | cons a l ih =>
    intro d h
    by_cases ha : jsIsSpace a
    · simp [collapseWS, ha] at h
      exact ih d h
    · simp [collapseWS, ha] at h
      subst h
      simpa using ha

theorem chain'_collapseWS : ∀ (b : Bool) (l : List Char),
    List.Chain' NoSS (collapseWS b l) := by
  intro b l
  induction l generalizing b with
  | nil => simp [collapseWS]
  | cons a cs ih =>
    by_cases ha : jsIsSpace a
    · by_cases hb : b
      · simpa [collapseWS, ha, hb] using ih true
      · simp only [collapseWS, ha, hb, if_pos, if_true, if_false,
          Bool.false_eq_true]
        apply List.chain'_cons'.mpr
        refine ⟨?_, ih true⟩
        intro y hy
        intro ⟨h1, h2⟩
        subst h2
        have := head?_collapseWS_true cs _ hy
        simp [jsIsSpace, spaceCode] at this
    · rw [show collapseWS b (a :: cs) = a :: collapseWS false cs by
        simp [collapseWS, ha]]
      apply List.chain'_cons'.mpr
      refine ⟨?_, ih false⟩
      intro y hy
      intro ⟨h1, h2⟩
      subst h1
      simp [jsIsSpace, spaceCode] at ha

theorem dropWhile_eq_self_of_head {p : Char → Bool} {l : List Char}
    (h : ∀ d, l.head? = some d → p d = false) : l.dropWhile p = l := by
  cases l with
  | nil => rfl
  | cons a t =>
    have := h a rfl
    simp [List.dropWhile, this]

theorem mem_trimWS {c : Char} {l : List Char} (h : c ∈ trimWS l) : c ∈ l := by
  unfold trimWS at h
  rw [List.mem_reverse] at h
  have h1 := (List.dropWhile_sublist jsIsSpace).mem h
  rw [List.mem_reverse] at h1
  exact (List.dropWhile_sublist jsIsSpace).mem h1

theorem noSS_symm {a b : Char} (h : NoSS a b) : NoSS b a := by
  intro ⟨h1, h2⟩; exact h ⟨h2, h1⟩

theorem chain'_reverse_noSS {l : List Char} (h : List.Chain' NoSS l) :
    List.Chain' NoSS l.reverse := by
  rw [List.chain'_reverse]
  exact h.imp (fun _ _ h' => noSS_symm h')

theorem chain'_trimWS {l : List Char} (h : List.Chain' NoSS l) :
    List.Chain' NoSS (trimWS l) := by
  unfold trimWS
  apply chain'_reverse_noSS
  apply List.Chain'.suffix _ (List.dropWhile_suffix jsIsSpace)
  apply chain'_reverse_noSS
  exact h.suffix (List.dropWhile_suffix jsIsSpace)

theorem head?_dropWhile_false {p : Char → Bool} {l : List Char} {d : Char}
    (h : (l.dropWhile p).head? = some d) : p d = false := by
  have := List.head?_dropWhile_not p l
  rw [h] at this
  exact this

theorem getLast?_of_suffix {l1 l2 : List Char} (h : l1 <:+ l2)
    (hne : l1 ≠ []) : l1.getLast? = l2.getLast? := by
  rcases h with ⟨t, rfl⟩
  rw [List.getLast?_append_of_ne_nil _ hne]

theorem trimWS_idem (l : List Char) : trimWS (trimWS l) = trimWS l := by
  have hhead : ∀ d, (trimWS l).head? = some d → jsIsSpace d = false := by
    intro d hd
    rw [show trimWS l = (List.dropWhile jsIsSpace
          (List.dropWhile jsIsSpace l).reverse).reverse from rfl,
        List.head?_reverse] at hd
    by_cases hnil :
        List.dropWhile jsIsSpace (List.dropWhile jsIsSpace l).reverse = []
    · rw [hnil] at hd; simp at hd
    · rw [getLast?_of_suffix (List.dropWhile_suffix jsIsSpace) hnil,
          List.getLast?_reverse] at hd
      exact head?_dropWhile_false hd
  have e1 : List.dropWhile jsIsSpace (trimWS l) = trimWS l :=
    dropWhile_eq_self_of_head hhead
  show ((List.dropWhile jsIsSpace (trimWS l)).reverse.dropWhile
      jsIsSpace).reverse = trimWS l
  rw [e1]
  show (((List.dropWhile jsIsSpace
      (List.dropWhile jsIsSpace l).reverse).reverse.reverse).dropWhile
      jsIsSpace).reverse = trimWS l
  rw [List.reverse_reverse, List.dropWhile_idempotent]
  rfl

theorem collapse_fixed : ∀ (t : List Char), List.Chain' NoSS t →
    (∀ c ∈ t, jsIsSpace c = true → c = ' ') →
    collapseWS false t = t ∧
      (∀ d, t.head? = some d → d ≠ ' ' → collapseWS true t = t) := by
  intro t
  induction t with
  | nil => intro _ _; exact ⟨rfl, by intro d h; simp at h⟩
  | cons a cs ih =>
    intro hch hsp
    have hch' : List.Chain' NoSS cs := hch.tail
    have hsp' : ∀ c ∈ cs, jsIsSpace c = true → c = ' ' :=
      fun c hc => hsp c (List.mem_cons_of_mem _ hc)
    obtain ⟨ih1, ih2⟩ := ih hch' hsp'
    by_cases ha : jsIsSpace a = true
    · have haeq : a = ' ' := hsp a (List.mem_cons_self _ _) ha
      subst haeq
      have htail : collapseWS true cs = cs := by
        cases cs with
        | nil => rfl
        | cons e es =>
          apply ih2 e rfl
          intro he
          subst he
          have := List.chain'_cons.mp hch
          exact this.1 ⟨rfl, rfl⟩
      constructor
      · simp [collapseWS, ha, htail]
      · intro d hd hne
        simp only [List.head?_cons, Option.some_inj] at hd
        exact absurd hd.symm hne
    · constructor
      · simp [collapseWS, ha, ih1]
      · intro d _ _
        simp [collapseWS, ha, ih1]

theorem norm_fixed_of_clean (s : String)
    (H : ∀ c ∈ s.data, keepChar (Char.toLower c) = true ∨ jsIsSpace c = true) :
    norm (norm s) = norm s := by
  have hukeep : ∀ c ∈ collapseWS false (s.data.map Char.toLower),
      keepChar c = true := by
    intro c hc
    rcases mem_collapseWS false _ c hc with h1 | ⟨h2, h3⟩
    · subst h1; decide
    · rcases List.mem_map.mp h2 with ⟨c0, hc0, rfl⟩
      rcases H c0 hc0 with hk | hs
      · exact hk
      · rw [jsIsSpace_toLower] at h3
        rw [h3] at hs
        exact absurd hs (by simp)
  have et : normList s.data =
      trimWS (collapseWS false (s.data.map Char.toLower)) := by
    unfold normList
    rw [List.filter_eq_self.mpr hukeep]
  have htkeep : ∀ c ∈ normList s.data, keepChar c = true := by
    rw [et]; intro c hc; exact hukeep c (mem_trimWS hc)
  have htlower : ∀ c ∈ normList s.data, Char.toLower c = c := by
    rw [et]
    intro c hc
    rcases mem_collapseWS false _ c (mem_trimWS hc) with h1 | ⟨h2, _⟩
    · subst h1; decide
    · rcases List.mem_map.mp h2 with ⟨c0, _, rfl⟩
      exact toLower_idem c0
  have hmap : (normList s.data).map Char.toLower = normList s.data := by
    have h1 : (normList s.data).map Char.toLower = (normList s.data).map id :=
      List.map_congr_left (by intro c hc; rw [htlower c hc]; rfl)
    rw [h1, List.map_id]
  have hchain : List.Chain' NoSS (normList s.data) := by
    rw [et]
    exact chain'_trimWS (chain'_collapseWS false _)
  have hspt : ∀ c ∈ normList s.data, jsIsSpace c = true → c = ' ' :=
    fun c hc hs => keep_and_space (htkeep c hc) hs
  have hcol : collapseWS false (normList s.data) = normList s.data :=
    (collapse_fixed _ hchain hspt).1
  have htrim2 : trimWS (normList s.data) = normList s.data := by
    rw [et]
    exact trimWS_idem _
  have gen : ∀ t : List Char, t.map Char.toLower = t → collapseWS false t = t →
      List.filter keepChar t = t → trimWS t = t → normList t = t := by
    intro t h1 h2 h3 h4
    unfold normList
    rw [h1, h2, h3, h4]
  have key : normList (normList s.data) = normList s.data :=
    gen _ hmap hcol (List.filter_eq_self.mpr htkeep) htrim2
  show (⟨normList (normList s.data)⟩ : String) = ⟨normList s.data⟩
  rw [key]

/-- C2 (counterexample): `norm` is not idempotent as claimed.  Stripping
the dot of `"a . b"` leaves the two spaces that surrounded it adjacent,
so `norm "a . b" = "a  b"` while a second pass collapses them. -/
theorem norm_not_idempotent_cex : norm (norm "a . b") ≠ norm "a . b" := by
  decide

/-- C2 (amended): `norm` is idempotent on every string whose characters
lower-case into the kept class (word characters, ampersand, space) or
are whitespace — i.e. whenever the strip step removes nothing — and it
is case- and whitespace-insensitive: `"Tamil  Nadu"` and `"tamil nadu"`
normalize to the same key.  (Unrestricted idempotence fails, see the
counterexample: stripping punctuation can merge two whitespace runs.) -/
theorem norm_idempotent_on_clean :
    (∀ s : String,
      (∀ c ∈ s.data, keepChar (Char.toLower c) = true ∨ jsIsSpace c = true) →
      norm (norm s) = norm s) ∧
    norm "Tamil  Nadu" = norm "tamil nadu" :=
  ⟨norm_fixed_of_clean, by decide⟩

/-- C2 witness: the amended idempotence applied to the concrete string
`"Tamil  Nadu"`. -/
theorem norm_idempotent_on_clean_witness :
    norm (norm "Tamil  Nadu") = norm "Tamil  Nadu" ∧
      norm "Tamil  Nadu" = norm "tamil nadu" :=
  ⟨norm_idempotent_on_clean.1 "Tamil  Nadu" (by decide),
   norm_idempotent_on_clean.2⟩

/-! ## C4: chooseStyle brackets -/

theorem chooseStyle_some_eq (v : ℚ) : chooseStyle (some v) =
    [("#a56c34", 1000), ("#96ad2f", 2500), ("#3ba84d", 5000),
     ("#1f6e2c", 6000), ("#325c49", 7500)].getD (styleBracket v)
      ("#555555", 5000) := by
  simp only [chooseStyle, styleBracket]
  split_ifs <;> rfl

theorem styleBracket_le (v : ℚ) : styleBracket v ≤ 4 := by
  unfold styleBracket
  split_ifs <;> omega

/-- C4: `chooseStyle` is a pure function of the threshold bracket of its
input, with inclusive upper boundaries (45 and 50 share a style, 50.0001
gets the next style up), and every non-finite value gets an "unknown"
style pair distinct from that of every finite value. -/
theorem chooseStyle_brackets :
    (∀ a b : ℚ, styleBracket a = styleBracket b →
      chooseStyle (some a) = chooseStyle (some b)) ∧
    chooseStyle (some 45) = chooseStyle (some 50) ∧
    chooseStyle (some 50) = ("#a56c34", 1000) ∧
    chooseStyle (some (500001/10000)) = ("#96ad2f", 2500) ∧
    (∀ v : ℚ, chooseStyle (some v) ≠ chooseStyle none) := by
  refine ⟨?_, by norm_num [chooseStyle], by norm_num [chooseStyle],
    by norm_num [chooseStyle], ?_⟩
  · intro a b h
    rw [chooseStyle_some_eq a, chooseStyle_some_eq b, h]
  · intro v
    rw [chooseStyle_some_eq v]
    have h4 := styleBracket_le v
    show _ ≠ chooseStyle none
    generalize styleBracket v = n at h4
    interval_cases n <;> decide

/-- C4 witness: the bracket congruence at 45 and 50, and the
finite/unknown separation at 45. -/
theorem chooseStyle_brackets_witness :
    chooseStyle (some 45) = chooseStyle (some 50) ∧
      chooseStyle (some 45) ≠ chooseStyle none :=
  ⟨chooseStyle_brackets.1 45 50 (by norm_num [styleBracket]),
   chooseStyle_brackets.2.2.2.2 45⟩

/-! ## C3: IFS transform selection -/

/-- C3: in the point loop, transform 0 is chosen exactly when the
selector is below `IFS[0][6] = 0.01`, transforms 1-3 on the cumulative
ranges up to `0.86`, `0.93` and `1`; the chosen `[a, b, c, d, e, f]`
updates the state by `(x, y) ↦ (a·x + b·y + e, c·x + d·y + f)`; and the
updated state is what the iteration emits as the next point. -/
theorem fern_transform_selection (r : ℚ) (h0 : 0 ≤ r) (h1 : r < 1) :
    ifsC 0 6 = 1/100 ∧
    (chooseT r = ifsRow 0 ↔ r < ifsC 0 6) ∧
    (chooseT r = ifsRow 1 ↔ 1/100 ≤ r ∧ r < 86/100) ∧
    (chooseT r = ifsRow 2 ↔ 86/100 ≤ r ∧ r < 93/100) ∧
    (chooseT r = ifsRow 3 ↔ 93/100 ≤ r) ∧
    (∀ x y : ℚ, fernStep (x, y) r =
      ((chooseT r).getD 0 0 * x + (chooseT r).getD 1 0 * y + (chooseT r).getD 4 0,
       (chooseT r).getD 2 0 * x + (chooseT r).getD 3 0 * y + (chooseT r).getD 5 0)) ∧
    (∀ (p : ℚ × ℚ) (rs : List ℚ), fernTrail p (r :: rs) =
      emitPoint (fernStep p r) :: fernTrail (fernStep p r) rs) := by
  have e6 : ifsC 0 6 = 1/100 := by norm_num [ifsC, ifsRow, IFS]
  have d01 : ifsRow 0 ≠ ifsRow 1 := by norm_num [ifsRow, IFS]
  have d02 : ifsRow 0 ≠ ifsRow 2 := by norm_num [ifsRow, IFS]
  have d03 : ifsRow 0 ≠ ifsRow 3 := by norm_num [ifsRow, IFS]
  have d12 : ifsRow 1 ≠ ifsRow 2 := by norm_num [ifsRow, IFS]
  have d13 : ifsRow 1 ≠ ifsRow 3 := by norm_num [ifsRow, IFS]
  have d23 : ifsRow 2 ≠ ifsRow 3 := by norm_num [ifsRow, IFS]
  refine ⟨e6, ?_, ?_, ?_, ?_, fun x y => rfl, fun p rs => rfl⟩ <;>
    unfold chooseT <;> simp only [e6] <;> split_ifs with hA hB hC <;>
    constructor <;> intro h <;>
    first
      | assumption
      | constructor <;> linarith
      | exact absurd h d01
      | exact absurd h d02
      | exact absurd h d03
      | exact absurd h d01.symm
      | exact absurd h d12
      | exact absurd h d13
      | exact absurd h d02.symm
      | exact absurd h d12.symm
      | exact absurd h d23
      | exact absurd h d03.symm
      | exact absurd h d13.symm
      | exact absurd h d23.symm
      | linarith

/-- C3 witness: the selection at the concrete selector 1/2 (transform 1,
the main stem map). -/
theorem fern_transform_selection_witness :
    (0:ℚ) ≤ 1/2 ∧ (1/2:ℚ) < 1 ∧
      (chooseT (1/2) = ifsRow 1 ↔ 1/100 ≤ (1/2:ℚ) ∧ (1/2:ℚ) < 86/100) :=
  ⟨by norm_num, by norm_num,
   (fern_transform_selection (1/2) (by norm_num) (by norm_num)).2.2.1⟩

/-! ## C5: alias round trip -/

theorem objGet_mem {l : List (String × String)} {a b : String}
    (h : objGet l a = some b) : (a, b) ∈ l := by
  unfold objGet at h
  cases e : (l.filter (fun p => p.1 = a)).getLast? with
  | none => rw [e] at h; simp at h
  | some q =>
    rw [e] at h
    simp only [Option.map_some', Option.some_inj] at h
    have hq := List.mem_of_mem_getLast? e
    have hmem := List.mem_filter.mp hq
    have h1 : q.1 = a := by
      have := hmem.2
      simpa using this
    have : q = (a, b) := by
      cases q
      simp_all
    rw [← this]
    exact hmem.1

theorem filter_snd_singleton : ∀ (l : List (String × String)) (a b : String),
    (l.map Prod.snd).Nodup → (a, b) ∈ l →
    l.filter (fun p => p.2 = b) = [(a, b)] := by
  intro l
  induction l with
  | nil => intro a b _ hm; simp at hm
  | cons x t ih =>
    intro a b hnd hm
    have hnd' : (t.map Prod.snd).Nodup := (List.nodup_cons.mp hnd).2
    have hx : x.2 ∉ t.map Prod.snd := (List.nodup_cons.mp hnd).1
    rcases List.mem_cons.mp hm with he | ht
    · subst he
      have hrest : t.filter (fun p => p.2 = b) = [] := by
        apply List.filter_eq_nil_iff.mpr
        intro p hp
        simp only [decide_eq_true_eq]
        intro hpb
        exact hx (List.mem_map.mpr ⟨p, hp, by simp [hpb]⟩)
      simp [List.filter_cons, hrest]
    · have hb : b ∈ t.map Prod.snd := List.mem_map.mpr ⟨(a, b), ht, rfl⟩
      have hxb : x.2 ≠ b := fun he' => hx (he' ▸ hb)
      rw [List.filter_cons, if_neg (by simp [hxb])]
      exact ih a b hnd' ht

theorem objGet_swap {l : List (String × String)}
    (hnd : (l.map Prod.snd).Nodup) {a b : String}
    (h : objGet l a = some b) :
    objGet (l.map (fun p => (p.2, p.1))) b = some a := by
  have hm : (a, b) ∈ l := objGet_mem h
  unfold objGet
  have hf : (l.map (fun p => (p.2, p.1))).filter (fun p => p.1 = b) =
      (l.filter (fun p => p.2 = b)).map (fun p => (p.2, p.1)) := by
    rw [List.filter_map]
    rfl
  rw [hf, filter_snd_singleton l a b hnd hm]
  rfl

/-- C5: inverting the forward alias table at load time round-trips:
when `NAME_ALIASES` maps a (normalized) CSV key to a topo key and the
forward table has no duplicate targets, looking the topo key up in
`REVERSE_ALIASES` returns the original CSV key. -/
theorem alias_round_trip (hnd : (NAME_ALIASES.map Prod.snd).Nodup) :
    ∀ a b : String, objGet NAME_ALIASES a = some b →
      objGet REVERSE_ALIASES b = some a := by
  intro a b h
  unfold REVERSE_ALIASES
  exact objGet_swap hnd h

/-- C5 witness: the forward table does have pairwise-distinct targets,
and the round trip holds concretely for Tamil Nadu. -/
theorem alias_round_trip_witness :
    (NAME_ALIASES.map Prod.snd).Nodup ∧
      objGet NAME_ALIASES (norm "Tamil Nadu") = some "31" ∧
      objGet REVERSE_ALIASES "31" = some (norm "Tamil Nadu") := by
  refine ⟨by decide, by decide, ?_⟩
  have h31 : objGet NAME_ALIASES (norm "Tamil Nadu") = some "31" := by decide
  exact alias_round_trip (by decide) _ _ h31

/-! ## C7: boundary loader case analysis -/

/-- C7: `loadBoundaries` errors exactly when the fetch fails or the
discriminant is neither `"Topology"` nor `"FeatureCollection"`; on a
topology it returns the extraction from the first named geometry object,
and on a feature collection it returns the document unchanged. -/
theorem loadBoundaries_cases {V : Type} (tf : JsonDoc V → Option V → JsonDoc V)
    (res : FetchResult V) :
    ((∃ e, loadBoundaries tf res = .error e) ↔
      ((∃ st, res = .fail st) ∨
        ∃ doc, res = .ok doc ∧ doc.dtype ≠ "Topology" ∧
          doc.dtype ≠ "FeatureCollection")) ∧
    (∀ doc, res = .ok doc → doc.dtype = "Topology" →
      loadBoundaries tf res = .ok (tf doc (doc.objects.head?.map Prod.snd))) ∧
    (∀ doc, res = .ok doc → doc.dtype = "FeatureCollection" →
      loadBoundaries tf res = .ok doc) := by
  cases res with
  | fail st =>
    refine ⟨?_, by intro doc h; exact absurd h (by simp),
      by intro doc h; exact absurd h (by simp)⟩
    constructor
    · intro _; exact Or.inl ⟨st, rfl⟩
    · intro _; exact ⟨_, rfl⟩
  | ok doc =>
    by_cases h1 : doc.dtype = "Topology"
    · refine ⟨?_, ?_, ?_⟩
      · constructor
        · intro ⟨e, he⟩
          rw [show loadBoundaries tf (.ok doc) =
            .ok (tf doc (doc.objects.head?.map Prod.snd)) by
              simp [loadBoundaries, h1]] at he
          exact absurd he (by simp)
        · intro h
          rcases h with ⟨st, hst⟩ | ⟨d, hd, hne, _⟩
          · exact absurd hst (by simp)
          · rw [show d = doc by injection hd with h'; exact h'.symm] at hne
            exact absurd h1 hne
      · intro d hd ht
        have : d = doc := by injection hd with h'; exact h'.symm
        subst this
        simp [loadBoundaries, h1]
      · intro d hd ht
        have : d = doc := by injection hd with h'; exact h'.symm
        subst this
        rw [h1] at ht
        exact absurd ht (by decide)
    · by_cases h2 : doc.dtype = "FeatureCollection"
      · refine ⟨?_, ?_, ?_⟩
        · constructor
          · intro ⟨e, he⟩
            rw [show loadBoundaries tf (.ok doc) = .ok doc by
              simp [loadBoundaries, h1, h2]] at he
            exact absurd he (by simp)
          · intro h
            rcases h with ⟨st, hst⟩ | ⟨d, hd, _, hne2⟩
            · exact absurd hst (by simp)
            · rw [show d = doc by injection hd with h'; exact h'.symm] at hne2
              exact absurd h2 hne2
        · intro d hd ht
          have : d = doc := by injection hd with h'; exact h'.symm
          subst this
          exact absurd ht h1
        · intro d hd ht
          have : d = doc := by injection hd with h'; exact h'.symm
          subst this
          simp [loadBoundaries, h1, h2]
      · refine ⟨?_, ?_, ?_⟩
        · constructor
          · intro _
            exact Or.inr ⟨doc, rfl, h1, h2⟩
          · intro _
            exact ⟨"Unrecognized data type: " ++ doc.dtype,
              by simp [loadBoundaries, h1, h2]⟩
        · intro d hd ht
          have : d = doc := by injection hd with h'; exact h'.symm
          subst this
          exact absurd ht h1
        · intro d hd ht
          have : d = doc := by injection hd with h'; exact h'.symm
          subst this
          exact absurd ht h2

/-- C7 witness: the two success branches at concrete documents. -/
theorem loadBoundaries_cases_witness :
    loadBoundaries (V := Nat) (fun d _ => d)
        (.ok ⟨"FeatureCollection", []⟩) = .ok ⟨"FeatureCollection", []⟩ ∧
      loadBoundaries (V := Nat) (fun d _ => d)
        (.ok ⟨"Topology", [("states", 7)]⟩) = .ok ⟨"Topology", [("states", 7)]⟩ := by
  constructor
  · exact (loadBoundaries_cases (V := Nat) (fun d _ => d)
      (.ok ⟨"FeatureCollection", []⟩)).2.2 _ rfl rfl
  · exact (loadBoundaries_cases (V := Nat) (fun d _ => d)
      (.ok ⟨"Topology", [("states", 7)]⟩)).2.1 _ rfl rfl

/-! ## C8: the stepper never touches the year index -/

theorem step_yearIndex (tickMs : Int) (nYears : Nat) (now : Int)
    (s : ClockState) : (step tickMs nYears now s).yearIndex = s.yearIndex := by
  unfold step
  split_ifs <;> rfl

theorem runSteps_yearIndex (tickMs : Int) (nYears : Nat) (nows : List Int)
    (s : ClockState) : (runSteps tickMs nYears nows s).yearIndex = s.yearIndex := by
  induction nows generalizing s with
  | nil => rfl
  | cons n ns ih =>
    show (runSteps tickMs nYears ns (step tickMs nYears n s)).yearIndex = _
    rw [ih, step_yearIndex]

theorem runSteps_monthIndex (tickMs : Int) (nYears : Nat) :
    ∀ (nows : List Int) (s : ClockState),
      firesAll tickMs nYears s nows = true → s.monthIndex < 12 →
      (runSteps tickMs nYears nows s).monthIndex =
        (s.monthIndex + nows.length) % 12 := by
  intro nows
  induction nows with
  | nil =>
    intro s _ hm
    show s.monthIndex = (s.monthIndex + 0) % 12
    omega
  | cons n ns ih =>
    intro s hf hm
    unfold firesAll at hf
    rw [Bool.and_eq_true, Bool.and_eq_true] at hf
    obtain ⟨⟨h1, h2⟩, h3⟩ := hf
    have h1' : tickMs ≤ n - s.lastTime := of_decide_eq_true h1
    have h2' : nYears ≠ 0 := of_decide_eq_true h2
    have hstep : step tickMs nYears n s =
        ⟨(s.monthIndex + 1) % MONTHS.length, s.yearIndex, n⟩ := by
      unfold step
      rw [if_pos ⟨h1', h2'⟩]
    show (runSteps tickMs nYears ns (step tickMs nYears n s)).monthIndex = _
    rw [hstep] at h3 ⊢
    rw [ih _ h3 (by show (s.monthIndex + 1) % MONTHS.length < 12; simp [MONTHS]; omega)]
    show ((s.monthIndex + 1) % MONTHS.length + ns.length) % 12 = _
    simp only [MONTHS, List.length]
    omega

/-- C8: the automatic stepper never mutates `yearIndex`; a firing
advance replaces `monthIndex` by `(monthIndex + 1) % 12`; and after any
run of advances that all fire, of length a multiple of twelve, the month
index is back at its (in-range) starting value with the year index
untouched. -/
theorem step_month_only (tickMs : Int) (nYears : Nat) (nows : List Int)
    (s : ClockState) :
    ((runSteps tickMs nYears nows s).yearIndex = s.yearIndex) ∧
    (∀ now, tickMs ≤ now - s.lastTime → nYears ≠ 0 →
      step tickMs nYears now s =
        ⟨(s.monthIndex + 1) % 12, s.yearIndex, now⟩) ∧
    (firesAll tickMs nYears s nows = true → s.monthIndex < 12 →
      nows.length % 12 = 0 →
      (runSteps tickMs nYears nows s).monthIndex = s.monthIndex) := by
  refine ⟨runSteps_yearIndex tickMs nYears nows s, ?_, ?_⟩
  · intro now hA hB
    unfold step
    rw [if_pos ⟨hA, hB⟩]
    rfl
  · intro hf hm hlen
    rw [runSteps_monthIndex tickMs nYears nows s hf hm]
    omega

/-- C8 witness: twelve firing ticks starting from month 0, year 3. -/
theorem step_month_only_witness :
    (runSteps 1200 1 [1200, 2400, 3600, 4800, 6000, 7200, 8400, 9600,
      10800, 12000, 13200, 14400] ⟨0, 3, 0⟩).yearIndex = 3 ∧
    step 1200 1 1200 ⟨0, 3, 0⟩ = ⟨1 % 12, 3, 1200⟩ ∧
    (runSteps 1200 1 [1200, 2400, 3600, 4800, 6000, 7200, 8400, 9600,
      10800, 12000, 13200, 14400] ⟨0, 3, 0⟩).monthIndex = 0 :=
  ⟨(step_month_only 1200 1 _ _).1,
   (step_month_only 1200 1 [] ⟨0, 3, 0⟩).2.1 1200 (by decide) (by decide),
   (step_month_only 1200 1 _ ⟨0, 3, 0⟩).2.2 (by decide) (by decide) (by decide)⟩

/-! ## C1: the Value Resolver -/

theorem yearEqB_true {jsNum : String → Option ℚ} {yv : ℚ} {x : Row} :
    yearEqB jsNum (some yv) x = true ↔ yearNum jsNum x = some yv := by
  unfold yearEqB
  cases h : yearNum jsNum x <;> simp

theorem yearLeB_true {jsNum : String → Option ℚ} {yv : ℚ} {x : Row} :
    yearLeB jsNum (some yv) x = true ↔
      ∃ ry, yearNum jsNum x = some ry ∧ ry ≤ yv := by
  unfold yearLeB
  cases h : yearNum jsNum x <;> simp

theorem pairwise_mem_cases {α : Type} {R : α → α → Prop} :
    ∀ {l : List α}, l.Pairwise R → ∀ {x y : α}, x ∈ l → y ∈ l →
      x = y ∨ R x y ∨ R y x := by
  intro l
  induction l with
  | nil => intro _ x y hx; simp at hx
  | cons a t ih =>
    intro hp x y hx hy
    have hp' := List.pairwise_cons.mp hp
    rcases List.mem_cons.mp hx with hxa | hx'
    · rcases List.mem_cons.mp hy with hya | hy'
      · exact Or.inl (hxa.trans hya.symm)
      · subst hxa
        exact Or.inr (Or.inl (hp'.1 y hy'))
    · rcases List.mem_cons.mp hy with hya | hy'
      · subst hya
        exact Or.inr (Or.inr (hp'.1 x hx'))
      · exact ih hp'.2 hx' hy'

theorem find?_decomp {α : Type} (p : α → Bool) :
    ∀ (l : List α) (x : α), l.find? p = some x →
      ∃ l1 l2, l = l1 ++ x :: l2 ∧ ∀ z ∈ l1, p z = false := by
  intro l
  induction l with
  | nil => intro x h; simp at h
  | cons a t ih =>
    intro x h
    by_cases ha : p a = true
    · rw [List.find?_cons_of_pos _ ha] at h
      injection h with h
      subst h
      exact ⟨[], t, rfl, by intro z hz; simp at hz⟩
    · rw [List.find?_cons_of_neg _ (by simpa using ha)] at h
      rcases ih x h with ⟨l1, l2, rfl, hl1⟩
      exact ⟨a :: l1, l2, rfl, by
        intro z hz
        rcases List.mem_cons.mp hz with rfl | hz'
        · simpa using ha
        · exact hl1 z hz'⟩

theorem valueFor_eq (jsNum : String → Option ℚ) (db : List (String × List Row))
    (sub : String) (y : Option ℚ) (m : Option String) (a0 : Row) (t : List Row)
    (harr : List.lookup sub db = some (a0 :: t)) :
    valueFor jsNum db sub y m =
      monthNum jsNum
        (match (a0 :: t).find? (yearEqB jsNum y) with
         | some r => r
         | none =>
           match (a0 :: t).reverse.find? (yearLeB jsNum y) with
           | some r => r
           | none => a0) m := by
  unfold valueFor
  rw [harr]

/-- C1: the Value Resolver.  For an unknown region or an empty sequence
it yields NaN (`none`) instead of throwing.  For a region whose stored
sequence has parseable, strictly ascending years: an exact year match
returns that record's month value; otherwise the record with the
greatest year less than or equal to the target is used; and when the
target precedes every known year, the first record is used. -/
theorem valueFor_resolution (jsNum : String → Option ℚ)
    (db : List (String × List Row)) (sub : String) (m : Option String) :
    (List.lookup sub db = none → ∀ y, valueFor jsNum db sub y m = none) ∧
    (List.lookup sub db = some [] → ∀ y, valueFor jsNum db sub y m = none) ∧
    (∀ arr, List.lookup sub db = some arr →
      (∀ r ∈ arr, ∃ ry, yearNum jsNum r = some ry) →
      arr.Pairwise (YearLt jsNum) →
      ∀ yv : ℚ,
        (∀ r ∈ arr, yearNum jsNum r = some yv →
          valueFor jsNum db sub (some yv) m = monthNum jsNum r m) ∧
        ((∀ r' ∈ arr, yearNum jsNum r' ≠ some yv) →
          ∀ r ∈ arr, ∀ ry, yearNum jsNum r = some ry → ry ≤ yv →
            (∀ r' ∈ arr, ∀ ry', yearNum jsNum r' = some ry' → ry' ≤ yv → ry' ≤ ry) →
            valueFor jsNum db sub (some yv) m = monthNum jsNum r m) ∧
        (∀ a0 t, arr = a0 :: t →
          (∀ r ∈ arr, ∀ ry, yearNum jsNum r = some ry → yv < ry) →
          valueFor jsNum db sub (some yv) m = monthNum jsNum a0 m)) := by
  refine ⟨?_, ?_, ?_⟩
  · intro h y
    unfold valueFor
    rw [h]
  · intro h y
    unfold valueFor
    rw [h]
  · intro arr harr hparse hpw yv
    refine ⟨?_, ?_, ?_⟩
    · -- exact year match
      intro r hr hry
      cases arr with
      | nil => simp at hr
      | cons a0 t =>
        rw [valueFor_eq jsNum db sub (some yv) m a0 t harr]
        cases efind : (a0 :: t).find? (yearEqB jsNum (some yv)) with
        | none =>
          exact absurd (yearEqB_true.mpr hry)
            (by simpa using List.find?_eq_none.mp efind r hr)
        | some r' =>
          have hr'mem := List.mem_of_find?_eq_some efind
          have hr'y : yearNum jsNum r' = some yv :=
            yearEqB_true.mp (List.find?_some efind)
          have : r' = r := by
            rcases pairwise_mem_cases hpw hr'mem hr with h | h | h
            · exact h
            · exact absurd (h yv yv hr'y hry) (lt_irrefl yv)
            · exact absurd (h yv yv hry hr'y) (lt_irrefl yv)
          rw [this]
    · -- clamp to greatest year ≤ target
      intro hne r hr ry hry hle hmax
      cases arr with
      | nil => simp at hr
      | cons a0 t =>
        rw [valueFor_eq jsNum db sub (some yv) m a0 t harr]
        have hefind : (a0 :: t).find? (yearEqB jsNum (some yv)) = none := by
          apply List.find?_eq_none.mpr
          intro x hx hpx
          exact hne x hx (yearEqB_true.mp hpx)
        rw [hefind]
        cases elef : (a0 :: t).reverse.find? (yearLeB jsNum (some yv)) with
        | none =>
          exact absurd (yearLeB_true.mpr ⟨ry, hry, hle⟩)
            (by simpa using
              List.find?_eq_none.mp elef r (List.mem_reverse.mpr hr))
        | some r' =>
          rcases find?_decomp _ _ _ elef with ⟨l1, l2, hdec, hl1⟩
          have hr'le := yearLeB_true.mp (List.find?_some elef)
          rcases hr'le with ⟨ry', hry', hle'⟩
          have hr'mem : r' ∈ a0 :: t := by
            rw [← List.mem_reverse, hdec]
            simp
          have harr2 : (a0 :: t) = l2.reverse ++ r' :: l1.reverse := by
            have := congrArg List.reverse hdec
            simpa using this
          have hmaxr' : ry' ≤ ry := hmax r' hr'mem ry' hry' hle'
          have : r = r' := by
            have hrsplit : r ∈ l2.reverse ++ r' :: l1.reverse := by
              rw [← harr2]; exact hr
            rcases List.mem_append.mp hrsplit with hrl2 | hrc
            · -- r strictly before r' in the array: ry < ry', contradiction
              exfalso
              have hpwsplit := harr2 ▸ hpw
              rw [List.pairwise_append] at hpwsplit
              have hrel : YearLt jsNum r r' :=
                hpwsplit.2.2 r hrl2 r' (List.mem_cons_self _ _)
              have := hrel ry ry' hry hry'
              exact absurd hmaxr' (not_le.mpr this)
            · rcases List.mem_cons.mp hrc with h | hrl1
              · exact h
              · exfalso
                have hfalse : yearLeB jsNum (some yv) r = false :=
                  hl1 r (List.mem_reverse.mp hrl1)
                have htrue : yearLeB jsNum (some yv) r = true :=
                  yearLeB_true.mpr ⟨ry, hry, hle⟩
                rw [hfalse] at htrue
                exact absurd htrue (by simp)
          rw [← this]
    · -- target precedes all years: first record
      intro a0 t hform hall
      subst hform
      rw [valueFor_eq jsNum db sub (some yv) m a0 t harr]
      have hefind : (a0 :: t).find? (yearEqB jsNum (some yv)) = none := by
        apply List.find?_eq_none.mpr
        intro x hx hpx
        have := yearEqB_true.mp hpx
        have := hall x hx yv this
        exact absurd this (lt_irrefl yv)
      have helef : (a0 :: t).reverse.find? (yearLeB jsNum (some yv)) = none := by
        apply List.find?_eq_none.mpr
        intro x hx hpx
        rcases yearLeB_true.mp hpx with ⟨ry, hry, hle⟩
        have := hall x (List.mem_reverse.mp hx) ry hry
        exact absurd hle (not_le.mpr this)
      rw [hefind, helef]
theorem yearLt_of_eq {jsNum : String → Option ℚ} {r r' : Row} {x x' : ℚ}
    (h : yearNum jsNum r = some x) (h' : yearNum jsNum r' = some x')
    (hlt : x < x') : YearLt jsNum r r' := by
  intro a b ha hb
  rw [h] at ha
  rw [h'] at hb
  injection ha with ha
  injection hb with hb
  subst ha
  subst hb
  exact hlt

/-- C1 witness: years [1980, 1985, 1990] for region "X": querying 1975
yields the 1980 value, 2025 the 1990 value, 1985 the exact 1985 value,
and an unknown region yields `none`. -/
theorem valueFor_resolution_witness :
    valueFor jsNumLit sampleDb "X" (some 1975) (some "JAN") = some 5 ∧
    valueFor jsNumLit sampleDb "X" (some 2025) (some "JAN") = some 9 ∧
    valueFor jsNumLit sampleDb "X" (some 1985) (some "JAN") = some 7 ∧
    valueFor jsNumLit sampleDb "Nowhere" (some 1985) (some "JAN") = none := by
  have hy80 : yearNum jsNumLit row1980 = some 1980 := by decide
  have hy85 : yearNum jsNumLit row1985 = some 1985 := by decide
  have hy90 : yearNum jsNumLit row1990 = some 1990 := by decide
  have harr : List.lookup "X" sampleDb = some [row1980, row1985, row1990] := by
    decide
  have hparse : ∀ r ∈ [row1980, row1985, row1990],
      ∃ ry, yearNum jsNumLit r = some ry := by
    intro r hr
    rcases List.mem_cons.mp hr with rfl | hr
    · exact ⟨1980, hy80⟩
    rcases List.mem_cons.mp hr with rfl | hr
    · exact ⟨1985, hy85⟩
    rcases List.mem_cons.mp hr with rfl | hr
    · exact ⟨1990, hy90⟩
    simp at hr
  have hpw : List.Pairwise (YearLt jsNumLit) [row1980, row1985, row1990] := by
    refine List.Pairwise.cons ?_ (List.Pairwise.cons ?_ ?_)
    · intro r hr
      rcases List.mem_cons.mp hr with rfl | hr
      · exact yearLt_of_eq hy80 hy85 (by norm_num)
      rcases List.mem_cons.mp hr with rfl | hr
      · exact yearLt_of_eq hy80 hy90 (by norm_num)
      simp at hr
    · intro r hr
      rcases List.mem_cons.mp hr with rfl | hr
      · exact yearLt_of_eq hy85 hy90 (by norm_num)
      simp at hr
    · exact List.pairwise_singleton _ _
  have hmain := (valueFor_resolution jsNumLit sampleDb "X" (some "JAN")).2.2
    [row1980, row1985, row1990] harr hparse hpw
  refine ⟨?_, ?_, ?_, ?_⟩
  · -- 1975 precedes all years: first record
    have h := (hmain 1975).2.2 row1980 [row1985, row1990] rfl ?_
    · exact h.trans (by decide)
    · intro r hr ry hry
      rcases List.mem_cons.mp hr with rfl | hr
      · rw [hy80] at hry; injection hry with h'; subst h'; norm_num
      rcases List.mem_cons.mp hr with rfl | hr
      · rw [hy85] at hry; injection hry with h'; subst h'; norm_num
      rcases List.mem_cons.mp hr with rfl | hr
      · rw [hy90] at hry; injection hry with h'; subst h'; norm_num
      simp at hr
  · -- 2025 past the end: greatest year ≤ 2025 is 1990
    have h := (hmain 2025).2.1 ?_ row1990 (by simp) 1990 hy90 (by norm_num) ?_
    · exact h.trans (by decide)
    · intro r hr
      rcases List.mem_cons.mp hr with rfl | hr
      · rw [hy80]; intro h'; injection h' with h'; norm_num at h'
      rcases List.mem_cons.mp hr with rfl | hr
      · rw [hy85]; intro h'; injection h' with h'; norm_num at h'
      rcases List.mem_cons.mp hr with rfl | hr
      · rw [hy90]; intro h'; injection h' with h'; norm_num at h'
      simp at hr
    · intro r hr ry' hry' _
      rcases List.mem_cons.mp hr with rfl | hr
      · rw [hy80] at hry'; injection hry' with h'; subst h'; norm_num
      rcases List.mem_cons.mp hr with rfl | hr
      · rw [hy85] at hry'; injection hry' with h'; subst h'; norm_num
      rcases List.mem_cons.mp hr with rfl | hr
      · rw [hy90] at hry'; injection hry' with h'; subst h'; norm_num
      simp at hr
  · -- exact match at 1985
    exact ((hmain 1985).1 row1985 (by simp) hy85).trans (by decide)
  · -- unknown region resolves to NaN
    exact (valueFor_resolution jsNumLit sampleDb "Nowhere" (some "JAN")).1
      (by decide) (some 1985)


/-! ## C6: tabular ingestion -/

theorem loadLoop_eq (headers : List String) : ∀ ls : List String,
    loadLoop headers ls =
      (ls.filter (fun l => (splitCSVLine l).length = headers.length)).map
        (fun l => mkObj headers (splitCSVLine l)) := by
  intro ls
  induction ls with
  | nil => rfl
  | cons line rest ih =>
    by_cases h : (splitCSVLine line).length = headers.length
    · rw [show loadLoop headers (line :: rest) =
          mkObj headers (splitCSVLine line) :: loadLoop headers rest by
            simp [loadLoop, h]]
      rw [ih, List.filter_cons, if_pos (by simpa using h)]
      rfl
    · rw [show loadLoop headers (line :: rest) = loadLoop headers rest by
        simp [loadLoop, h]]
      rw [ih, List.filter_cons, if_neg (by simpa using h)]

theorem insertGroup_keys (k : String) (r : Row) :
    ∀ m : List (String × List Row),
      (insertGroup m k r).map Prod.fst =
        if k ∈ m.map Prod.fst then m.map Prod.fst
        else m.map Prod.fst ++ [k] := by
  intro m
  induction m with
  | nil => simp [insertGroup]
  | cons g rest ih =>
    obtain ⟨k', rs⟩ := g
    by_cases h : k' = k
    · subst h
      simp [insertGroup]
    · rw [show insertGroup ((k', rs) :: rest) k r =
          (k', rs) :: insertGroup rest k r by simp [insertGroup, h]]
      by_cases hmem : k ∈ rest.map Prod.fst
      · simp only [List.map_cons, ih, hmem, if_true]
        rw [if_pos (by simp [hmem])]
      · rw [if_neg (by simp [hmem, Ne.symm h])]
        simp only [List.map_cons, ih, hmem, if_false]
        rfl

theorem insertGroup_keys_nodup {m : List (String × List Row)} (k : String)
    (r : Row) (h : (m.map Prod.fst).Nodup) :
    ((insertGroup m k r).map Prod.fst).Nodup := by
  rw [insertGroup_keys]
  by_cases hmem : k ∈ m.map Prod.fst
  · rwa [if_pos hmem]
  · rw [if_neg hmem]
    exact List.Nodup.append h (List.nodup_singleton k)
      (by intro x hx hx'; simp at hx'; subst hx'; exact hmem hx)

theorem groupRows_keys_aux :
    ∀ (rows : List Row) (m : List (String × List Row)),
      ((m.map Prod.fst).Nodup →
        (((rows.foldl (fun m r =>
            match subOf r with
            | some s => insertGroup m s r
            | none => m) m).map Prod.fst).Nodup)) ∧
      (∀ k, k ∈ (rows.foldl (fun m r =>
            match subOf r with
            | some s => insertGroup m s r
            | none => m) m).map Prod.fst ↔
          k ∈ m.map Prod.fst ∨ ∃ r ∈ rows, subOf r = some k) := by
  intro rows
  induction rows with
  | nil =>
    intro m
    exact ⟨id, by intro k; simp⟩
  | cons r0 rest ih =>
    intro m
    cases hsub : subOf r0 with
    | none =>
      constructor
      · intro hnd
        have := (ih m).1 hnd
        simpa [List.foldl_cons, hsub] using this
      · intro k
        rw [show (r0 :: rest).foldl (fun m r =>
            match subOf r with
            | some s => insertGroup m s r
            | none => m) m = rest.foldl (fun m r =>
            match subOf r with
            | some s => insertGroup m s r
            | none => m) m by simp [List.foldl_cons, hsub]]
        rw [(ih m).2 k]
        constructor
        · intro h
          rcases h with h | ⟨r, hr, hk⟩
          · exact Or.inl h
          · exact Or.inr ⟨r, List.mem_cons_of_mem _ hr, hk⟩
        · intro h
          rcases h with h | ⟨r, hr, hk⟩
          · exact Or.inl h
          · rcases List.mem_cons.mp hr with rfl | hr'
            · rw [hsub] at hk; exact absurd hk (by simp)
            · exact Or.inr ⟨r, hr', hk⟩
    | some s =>
      have hfold : (r0 :: rest).foldl (fun m r =>
          match subOf r with
          | some s => insertGroup m s r
          | none => m) m = rest.foldl (fun m r =>
          match subOf r with
          | some s => insertGroup m s r
          | none => m) (insertGroup m s r0) := by
        simp [List.foldl_cons, hsub]
      constructor
      · intro hnd
        rw [hfold]
        exact (ih (insertGroup m s r0)).1 (insertGroup_keys_nodup s r0 hnd)
      · intro k
        rw [hfold, (ih (insertGroup m s r0)).2 k]
        have hkeys : k ∈ (insertGroup m s r0).map Prod.fst ↔
            k ∈ m.map Prod.fst ∨ k = s := by
          rw [insertGroup_keys]
          by_cases hmem : s ∈ m.map Prod.fst
          · rw [if_pos hmem]
            constructor
            · exact Or.inl
            · intro h
              rcases h with h | rfl
              · exact h
              · exact hmem
          · rw [if_neg hmem]
            simp
        rw [hkeys]
        constructor
        · intro h
          rcases h with (h | rfl) | ⟨r, hr, hk⟩
          · exact Or.inl h
          · exact Or.inr ⟨r0, List.mem_cons_self _ _, hsub⟩
          · exact Or.inr ⟨r, List.mem_cons_of_mem _ hr, hk⟩
        · intro h
          rcases h with h | ⟨r, hr, hk⟩
          · exact Or.inl (Or.inl h)
          · rcases List.mem_cons.mp hr with rfl | hr'
            · rw [hsub] at hk
              injection hk with hk
              exact Or.inl (Or.inr hk.symm)
            · exact Or.inr ⟨r, hr', hk⟩

theorem gmem_insertGroup (k : String) (row : Row) :
    ∀ (m : List (String × List Row)) (r : Row),
      GMem (insertGroup m k row) r ↔ GMem m r ∨ r = row := by
  intro m
  induction m with
  | nil =>
    intro r
    constructor
    · intro ⟨g, hg, hr⟩
      simp [insertGroup] at hg
      subst hg
      simp at hr
      exact Or.inr hr
    · intro h
      rcases h with ⟨g, hg, _⟩ | rfl
      · simp at hg
      · exact ⟨(k, [r]), by simp [insertGroup]⟩
  | cons g0 rest ih =>
    intro r
    obtain ⟨k', rs⟩ := g0
    by_cases h : k' = k
    · rw [show insertGroup ((k', rs) :: rest) k row =
          (k', rs ++ [row]) :: rest by simp [insertGroup, h]]
      constructor
      · intro ⟨g, hg, hr⟩
        rcases List.mem_cons.mp hg with rfl | hg'
        · rcases List.mem_append.mp hr with h1 | h1
          · exact Or.inl ⟨(k', rs), List.mem_cons_self _ _, h1⟩
          · simp at h1
            exact Or.inr h1
        · exact Or.inl ⟨g, List.mem_cons_of_mem _ hg', hr⟩
      · intro h
        rcases h with ⟨g, hg, hr⟩ | rfl
        · rcases List.mem_cons.mp hg with rfl | hg'
          · exact ⟨(k', rs ++ [row]), List.mem_cons_self _ _,
              List.mem_append.mpr (Or.inl hr)⟩
          · exact ⟨g, List.mem_cons_of_mem _ hg', hr⟩
        · exact ⟨(k', rs ++ [r]), List.mem_cons_self _ _, by simp⟩
    · rw [show insertGroup ((k', rs) :: rest) k row =
          (k', rs) :: insertGroup rest k row by simp [insertGroup, h]]
      constructor
      · intro ⟨g, hg, hr⟩
        rcases List.mem_cons.mp hg with rfl | hg'
        · exact Or.inl ⟨(k', rs), List.mem_cons_self _ _, hr⟩
        · rcases (ih r).mp ⟨g, hg', hr⟩ with h1 | h1
          · rcases h1 with ⟨g', hg'', hr'⟩
            exact Or.inl ⟨g', List.mem_cons_of_mem _ hg'', hr'⟩
          · exact Or.inr h1
      · intro hcase
        rcases hcase with ⟨g, hg, hr⟩ | rfl
        · rcases List.mem_cons.mp hg with rfl | hg'
          · exact ⟨(k', rs), List.mem_cons_self _ _, hr⟩
          · rcases (ih r).mpr (Or.inl ⟨g, hg', hr⟩) with ⟨g', hg'', hr'⟩
            exact ⟨g', List.mem_cons_of_mem _ hg'', hr'⟩
        · rcases (ih r).mpr (Or.inr rfl) with ⟨g', hg'', hr'⟩
          exact ⟨g', List.mem_cons_of_mem _ hg'', hr'⟩

theorem gmem_groupRows_aux :
    ∀ (rows : List Row) (m : List (String × List Row)) (r : Row),
      GMem (rows.foldl (fun m r =>
          match subOf r with
          | some s => insertGroup m s r
          | none => m) m) r ↔
        GMem m r ∨ (r ∈ rows ∧ subOf r ≠ none) := by
  intro rows
  induction rows with
  | nil =>
    intro m r
    simp
  | cons r0 rest ih =>
    intro m r
    cases hsub : subOf r0 with
    | none =>
      rw [show (r0 :: rest).foldl (fun m r =>
          match subOf r with
          | some s => insertGroup m s r
          | none => m) m = rest.foldl (fun m r =>
          match subOf r with
          | some s => insertGroup m s r
          | none => m) m by simp [List.foldl_cons, hsub]]
      rw [ih m r]
      constructor
      · intro h
        rcases h with h | ⟨hr, hs⟩
        · exact Or.inl h
        · exact Or.inr ⟨List.mem_cons_of_mem _ hr, hs⟩
      · intro h
        rcases h with h | ⟨hr, hs⟩
        · exact Or.inl h
        · rcases List.mem_cons.mp hr with rfl | hr'
          · exact absurd hsub hs
          · exact Or.inr ⟨hr', hs⟩
    | some s =>
      rw [show (r0 :: rest).foldl (fun m r =>
          match subOf r with
          | some s => insertGroup m s r
          | none => m) m = rest.foldl (fun m r =>
          match subOf r with
          | some s => insertGroup m s r
          | none => m) (insertGroup m s r0) by simp [List.foldl_cons, hsub]]
      rw [ih (insertGroup m s r0) r, gmem_insertGroup s r0 m r]
      constructor
      · intro h
        rcases h with (h | rfl) | ⟨hr, hs⟩
        · exact Or.inl h
        · exact Or.inr ⟨List.mem_cons_self _ _, by rw [hsub]; simp⟩
        · exact Or.inr ⟨List.mem_cons_of_mem _ hr, hs⟩
      · intro h
        rcases h with h | ⟨hr, hs⟩
        · exact Or.inl (Or.inl h)
        · rcases List.mem_cons.mp hr with rfl | hr'
          · exact Or.inl (Or.inr rfl)
          · exact Or.inr ⟨hr', hs⟩

theorem mem_dedupAux : ∀ (l seen : List ℚ) (y : ℚ),
    y ∈ dedupAux seen l ↔ y ∈ l ∧ y ∉ seen := by
  intro l
  induction l with
  | nil => intro seen y; simp [dedupAux]
  | cons x xs ih =>
    intro seen y
    by_cases hx : x ∈ seen
    · rw [show dedupAux seen (x :: xs) = dedupAux seen xs by
        simp [dedupAux, hx]]
      rw [ih seen y]
      constructor
      · intro ⟨h1, h2⟩
        exact ⟨List.mem_cons_of_mem _ h1, h2⟩
      · intro ⟨h1, h2⟩
        rcases List.mem_cons.mp h1 with rfl | h1'
        · exact absurd hx h2
        · exact ⟨h1', h2⟩
    · rw [show dedupAux seen (x :: xs) = x :: dedupAux (x :: seen) xs by
        simp [dedupAux, hx]]
      constructor
      · intro h
        rcases List.mem_cons.mp h with rfl | h'
        · exact ⟨List.mem_cons_self _ _, hx⟩
        · have := (ih (x :: seen) y).mp h'
          exact ⟨List.mem_cons_of_mem _ this.1,
            fun hs => this.2 (List.mem_cons_of_mem _ hs)⟩
      · intro ⟨h1, h2⟩
        rcases List.mem_cons.mp h1 with rfl | h1'
        · exact List.mem_cons_self _ _
        · by_cases hxy : y = x
          · subst hxy; exact List.mem_cons_self _ _
          · exact List.mem_cons_of_mem _ ((ih (x :: seen) y).mpr
              ⟨h1', by simp [hxy, h2]⟩)

theorem nodup_dedupAux : ∀ (l seen : List ℚ), (dedupAux seen l).Nodup := by
  intro l
  induction l with
  | nil => intro seen; simp [dedupAux]
  | cons x xs ih =>
    intro seen
    by_cases hx : x ∈ seen
    · rw [show dedupAux seen (x :: xs) = dedupAux seen xs by
        simp [dedupAux, hx]]
      exact ih seen
    · rw [show dedupAux seen (x :: xs) = x :: dedupAux (x :: seen) xs by
        simp [dedupAux, hx]]
      refine List.nodup_cons.mpr ⟨?_, ih (x :: seen)⟩
      intro hmem
      exact ((mem_dedupAux xs (x :: seen) x).mp hmem).2 (List.mem_cons_self _ _)

theorem mem_allYearsOf (jsNum : String → Option ℚ) (rows : List Row) (y : ℚ) :
    y ∈ allYearsOf jsNum rows ↔
      ∃ r ∈ rows, subOf r ≠ none ∧ yearNum jsNum r = some y := by
  unfold allYearsOf
  rw [List.mem_flatMap]
  constructor
  · intro ⟨g, hg, hy⟩
    rcases List.mem_filterMap.mp hy with ⟨r, hr, hyr⟩
    have hgm : GMem (groupRows rows) r := ⟨g, hg, hr⟩
    rcases (gmem_groupRows_aux rows [] r).mp hgm with ⟨g', hg', _⟩ | ⟨hr2, hs⟩
    · simp at hg'
    · exact ⟨r, hr2, hs, hyr⟩
  · intro ⟨r, hr, hs, hyr⟩
    have hgm : GMem (groupRows rows) r :=
      (gmem_groupRows_aux rows [] r).mpr (Or.inr ⟨hr, hs⟩)
    rcases hgm with ⟨g, hg, hrg⟩
    exact ⟨g, hg, List.mem_filterMap.mpr ⟨r, hrg, hyr⟩⟩

/-- C6: every CSV line whose field count differs from the header's is
excluded from the parsed rows (the rows are exactly the matching lines,
in order); and the ingestion derives `subdivisionList` as the
lexicographically sorted, duplicate-free list of the (nonempty) region
names occurring in the rows, and `yearList` as the ascending,
duplicate-free list of the finite year values of those rows. -/
theorem ingestion_derived_lists :
    (∀ (text lfirst : String) (rest : List String),
      jsLines text = lfirst :: rest →
      loadCSVRows text = some
        ((rest.filter (fun l =>
            (splitCSVLine l).length = (splitCSVLine lfirst).length)).map
          (fun l => mkObj (splitCSVLine lfirst) (splitCSVLine l)))) ∧
    (∀ (jsNum : String → Option ℚ) (rows : List Row),
      List.Sorted (fun a b => a ≤ b) (subdivisionListOf rows) ∧
      (subdivisionListOf rows).Nodup ∧
      (∀ s, s ∈ subdivisionListOf rows ↔ ∃ r ∈ rows, subOf r = some s) ∧
      List.Sorted (fun a b => a ≤ b) (yearListOf jsNum rows) ∧
      (yearListOf jsNum rows).Nodup ∧
      (∀ y, y ∈ yearListOf jsNum rows ↔
        ∃ r ∈ rows, subOf r ≠ none ∧ yearNum jsNum r = some y)) := by
  constructor
  · intro text lfirst rest h
    unfold loadCSVRows
    rw [h]
    show some (loadLoop (splitCSVLine lfirst) rest) = _
    rw [loadLoop_eq]
  · intro jsNum rows
    have hkeys := groupRows_keys_aux rows []
    have hperm : (subdivisionListOf rows).Perm
        ((groupRows rows).map Prod.fst) := List.perm_insertionSort _ _
    have hpermY : (yearListOf jsNum rows).Perm
        (dedupAux [] (allYearsOf jsNum rows)) := List.perm_insertionSort _ _
    refine ⟨List.sorted_insertionSort _ _, ?_, ?_,
      List.sorted_insertionSort _ _, ?_, ?_⟩
    · exact hperm.nodup_iff.mpr (hkeys.1 (by simp))
    · intro s
      rw [hperm.mem_iff]
      constructor
      · intro hmem
        rcases (hkeys.2 s).mp hmem with h | h
        · simp at h
        · exact h
      · intro h
        exact (hkeys.2 s).mpr (Or.inr h)
    · exact hpermY.nodup_iff.mpr (nodup_dedupAux _ _)
    · intro y
      rw [hpermY.mem_iff, mem_dedupAux, mem_allYearsOf]
      constructor
      · intro ⟨h, _⟩
        exact h
      · intro h
        exact ⟨h, by simp⟩

/-- C6 witness: the sample CSV (with one short line and one blank line)
and the sample rows, with the membership characterizations instantiated
at region "X" and year 1985. -/
theorem ingestion_derived_lists_witness :
    loadCSVRows csvSample = some
      ((["X,1980,5", "bad,line", "X,1985,7", "B,1990,9"].filter (fun l =>
          (splitCSVLine l).length =
            (splitCSVLine "SUBDIVISION,YEAR,JAN").length)).map
        (fun l => mkObj (splitCSVLine "SUBDIVISION,YEAR,JAN")
          (splitCSVLine l))) ∧
    ("X" ∈ subdivisionListOf [row1980, row1985, row1990] ↔
      ∃ r ∈ [row1980, row1985, row1990], subOf r = some "X") ∧
    ((1985 : ℚ) ∈ yearListOf jsNumLit [row1980, row1985, row1990] ↔
      ∃ r ∈ [row1980, row1985, row1990],
        subOf r ≠ none ∧ yearNum jsNumLit r = some 1985) :=
  ⟨ingestion_derived_lists.1 csvSample "SUBDIVISION,YEAR,JAN"
      ["X,1980,5", "bad,line", "X,1985,7", "B,1990,9"] (by decide),
   (ingestion_derived_lists.2 jsNumLit [row1980, row1985, row1990]).2.2.1 "X",
   (ingestion_derived_lists.2 jsNumLit
      [row1980, row1985, row1990]).2.2.2.2.2 1985⟩

/-! ## C9 and C10: per-region isolation and index alignment -/

theorem buildLoop_spec (jsNum : String → Option ℚ) (env : AppEnv) :
    ∀ subs : List String,
      (buildLoop jsNum env subs).1.length = subs.length ∧
      (buildLoop jsNum env subs).2 = subs.countP
        (fun sub => List.lookup (aliasKeyOf sub) env.anchors = none) ∧
      (∀ i sub, subs.get? i = some sub →
        ∃ mesh, (buildLoop jsNum env subs).1.get? i = some mesh ∧
          mesh.subdivision = sub ∧
          mesh.key = aliasKeyOf sub ∧
          mesh.pos = (match List.lookup (aliasKeyOf sub) env.anchors with
            | some a => a
            | none => (0, 0, 0)) ∧
          mesh.scale = (match List.lookup (aliasKeyOf sub) env.scaleBy with
            | some sc => sc
            | none => DEFAULT_SCALE) ∧
          mesh.value = valueFor jsNum env.db sub (currentYearFor jsNum env sub)
            (MONTHS.get? env.monthIndex)) := by
  intro subs
  induction subs with
  | nil =>
    refine ⟨rfl, rfl, ?_⟩
    intro i sub h
    simp at h
  | cons sub0 rest ih =>
    obtain ⟨ih1, ih2, ih3⟩ := ih
    refine ⟨?_, ?_, ?_⟩
    · show (buildLoop jsNum env rest).1.length + 1 = rest.length + 1
      rw [ih1]
    · show (match List.lookup (aliasKeyOf sub0) env.anchors with
          | some _ => 0
          | none => 1) + (buildLoop jsNum env rest).2 = _
      rw [ih2, List.countP_cons]
      cases h : List.lookup (aliasKeyOf sub0) env.anchors <;> simp [h] <;> omega
    · intro i sub h
      cases i with
      | zero =>
        simp only [List.get?_cons_zero, Option.some_inj] at h
        subst h
        refine ⟨_, rfl, rfl, rfl, ?_, ?_, rfl⟩
        · cases h : List.lookup (aliasKeyOf sub0) env.anchors <;> simp [h]
        · cases h : List.lookup (aliasKeyOf sub0) env.scaleBy <;> simp [h]
      | succ j =>
        simp only [List.get?_cons_succ] at h
        exact ih3 j sub h

/-- C9: `buildAllFerns` creates exactly one mesh per entry of
`subdivisionList`, in order, regardless of any region's resolution
failure; a subdivision whose key has no anchor gets position `(0,0,0)`
and (given the module invariant that every scale override is installed
together with its anchor) the default scale, and is only counted in the
missing total. -/
theorem buildAllFerns_isolation (jsNum : String → Option ℚ) (env : AppEnv)
    (hscale : ∀ k, List.lookup k env.scaleBy ≠ none →
      List.lookup k env.anchors ≠ none) :
    (buildAllFerns jsNum env).1.length = env.subdivisionList.length ∧
    (buildAllFerns jsNum env).2 = env.subdivisionList.countP
      (fun sub => List.lookup (aliasKeyOf sub) env.anchors = none) ∧
    (∀ i sub, env.subdivisionList.get? i = some sub →
      ∃ mesh, (buildAllFerns jsNum env).1.get? i = some mesh ∧
        mesh.subdivision = sub ∧ mesh.key = aliasKeyOf sub ∧
        (List.lookup (aliasKeyOf sub) env.anchors = none →
          mesh.pos = (0, 0, 0) ∧ mesh.scale = DEFAULT_SCALE)) := by
  obtain ⟨h1, h2, h3⟩ := buildLoop_spec jsNum env env.subdivisionList
  refine ⟨h1, h2, ?_⟩
  intro i sub h
  rcases h3 i sub h with ⟨mesh, hm, hsub, hkey, hpos, hsc, _⟩
  refine ⟨mesh, hm, hsub, hkey, ?_⟩
  intro hanchor
  constructor
  · rw [hpos, hanchor]
  · rw [hsc]
    cases hb : List.lookup (aliasKeyOf sub) env.scaleBy with
    | none => rfl
    | some sc =>
      exact absurd hanchor (hscale _ (by rw [hb]; simp))

/-- C9 witness: the sample environment (no anchors): one mesh for the
one subdivision, counted missing, at the origin with the default
scale. -/
theorem buildAllFerns_isolation_witness :
    (buildAllFerns jsNumLit envSample).1.length = 1 ∧
    (buildAllFerns jsNumLit envSample).2 = 1 ∧
    ∃ mesh, (buildAllFerns jsNumLit envSample).1.get? 0 = some mesh ∧
      mesh.subdivision = "X" ∧ mesh.key = aliasKeyOf "X" ∧
      mesh.pos = (0, 0, 0) ∧ mesh.scale = DEFAULT_SCALE := by
  have h := buildAllFerns_isolation jsNumLit envSample
    (by intro k hk; simp [List.lookup, envSample] at hk)
  refine ⟨h.1.trans (by decide), (h.2.1).trans (by decide), ?_⟩
  rcases h.2.2 0 "X" (by decide) with ⟨mesh, hm, hsub, hkey, hmiss⟩
  have hnone : List.lookup (aliasKeyOf "X") envSample.anchors = none := by
    simp [envSample, List.lookup]
  exact ⟨mesh, hm, hsub, hkey, (hmiss hnone).1, (hmiss hnone).2⟩

theorem updateLoop_get? (jsNum : String → Option ℚ) (env : AppEnv) :
    ∀ (meshes : List FernMesh) (j i : Nat),
      (updateLoop jsNum env j meshes).get? i = (meshes.get? i).map
        (fun mesh => setFernValue mesh
          (match env.subdivisionList.get? (j + i) with
           | some s =>
             valueFor jsNum env.db s (env.yearList.get? env.yearIndex)
               (MONTHS.get? env.monthIndex)
           | none => none)) := by
  intro meshes
  induction meshes with
  | nil => intro j i; cases i <;> rfl
  | cons mesh rest ih =>
    intro j i
    cases i with
    | zero =>
      show some (setFernValue mesh _) = some (setFernValue mesh _)
      rw [Nat.add_zero]
    | succ k =>
      show (updateLoop jsNum env (j + 1) rest).get? k = _
      rw [ih (j + 1) k, List.get?_cons_succ]
      have : j + 1 + k = j + (k + 1) := by omega
      rw [this]

/-- C10: after `buildAllFerns`, `fernMeshes` has the same length as
`subdivisionList` and the mesh at every index records exactly that
index's subdivision; `updateAllFerns` relies on this pairing, assigning
`fernMeshes[i]` the value resolved for `subdivisionList[i]`. -/
theorem fern_index_alignment (jsNum : String → Option ℚ) (env : AppEnv) :
    (buildAllFerns jsNum env).1.length = env.subdivisionList.length ∧
    (∀ i, ((buildAllFerns jsNum env).1.get? i).map FernMesh.subdivision =
      env.subdivisionList.get? i) ∧
    (∀ (meshes : List FernMesh) (i : Nat) (mesh : FernMesh),
      meshes.get? i = some mesh →
      (updateAllFerns jsNum env meshes).get? i = some (setFernValue mesh
        (match env.subdivisionList.get? i with
         | some s =>
           valueFor jsNum env.db s (env.yearList.get? env.yearIndex)
             (MONTHS.get? env.monthIndex)
         | none => none))) := by
  obtain ⟨h1, _, h3⟩ := buildLoop_spec jsNum env env.subdivisionList
  refine ⟨h1, ?_, ?_⟩
  · intro i
    cases h : env.subdivisionList.get? i with
    | none =>
      have hlen : env.subdivisionList.length ≤ i := List.get?_eq_none.mp h
      have : (buildAllFerns jsNum env).1.get? i = none :=
        List.get?_eq_none.mpr (by
          show (buildLoop jsNum env env.subdivisionList).1.length ≤ i
          rw [h1]
          exact hlen)
      rw [this]
      rfl
    | some sub =>
      rcases h3 i sub h with ⟨mesh, hm, hsub, _⟩
      rw [show (buildAllFerns jsNum env).1.get? i = some mesh from hm]
      rw [Option.map_some', hsub]
  · intro meshes i mesh hm
    show (updateLoop jsNum env 0 meshes).get? i = _
    rw [updateLoop_get? jsNum env meshes 0 i, hm]
    rw [show (0 : Nat) + i = i by omega]
    rfl

/-- C10 witness: in the sample environment the built mesh at index 0
records subdivision "X", and updating a concrete singleton mesh list
assigns it the value resolved for `subdivisionList[0]` (January 1980,
value 5). -/
theorem fern_index_alignment_witness :
    (((buildAllFerns jsNumLit envSample).1.get? 0).map
      FernMesh.subdivision = some "X") ∧
    (updateAllFerns jsNumLit envSample
        [⟨"X", "x", (0, 0, 0), 1, none⟩]).get? 0 =
      some ⟨"X", "x", (0, 0, 0), 1, some 5⟩ := by
  have h := fern_index_alignment jsNumLit envSample
  constructor
  · exact (h.2.1 0).trans (by decide)
  · exact (h.2.2 [⟨"X", "x", (0, 0, 0), 1, none⟩] 0
      ⟨"X", "x", (0, 0, 0), 1, none⟩ rfl).trans (by decide)

end RainMap
